import Mathlib

/-!
Verification development for the menu ETL / imputation pipeline.

The Python sources are shallowly embedded as total Lean functions:
  - `etl/etl_advanced.py`   : vendor-name normalization, price coercion,
    nutrition extraction, vendor aggregates, ingest metrics.
  - `scripts/local_fuzzy_impute.py` : fuzzy calorie imputation stage.
  - `scripts/impute_with_model.py`  : model-regression imputation stage.

Machine reals (Python floats) are modelled as rationals; Python `None`
as `Option.none`; JSON-ish dynamic values as the inductive `JVal`;
dicts as association lists (first binding wins, as Python dicts have
unique keys).  External library functions (the rapidfuzz `WRatio`
scorer, the md5 hex digest, the persisted sklearn vectorizer and
regressor) are taken as parameters, since their internals are outside
this repository.
-/

set_option allowUnsafeReducibility true

attribute [semireducible] Rat.add Rat.mul Rat.inv Rat.sub Rat.div Rat.ofScientific

namespace MenuPipeline

/-- Python's ASCII whitespace set, as used by `str.strip` / `str.split`. -/
def pyWs (c : Char) : Bool :=
  c = ' ' || c = '\t' || c = '\n' || c = '\r' || c = '\x0b' || c = '\x0c'

/-- ASCII lower-casing of a character, matching Python `str.lower` on ASCII. -/
def lowerChar (c : Char) : Char :=
  if 65 ≤ c.toNat ∧ c.toNat ≤ 90 then Char.ofNat (c.toNat + 32) else c

/-- Lower-case every character. -/
def lowerL (s : List Char) : List Char := s.map lowerChar

/-- Python `str.strip()`: drop leading and trailing whitespace. -/
def stripL (s : List Char) : List Char :=
  (((s.dropWhile pyWs).reverse).dropWhile pyWs).reverse

/-- One step of whitespace splitting (processed by `List.foldr`). -/
def splitStep (c : Char) (acc : List (List Char)) : List (List Char) :=
  if pyWs c then [] :: acc
  else
    match acc with
    | [] => [[c]]
    | g :: gs => (c :: g) :: gs

/-- Raw whitespace split: groups between whitespace, possibly empty. -/
def splitAux (s : List Char) : List (List Char) := s.foldr splitStep []

/-- Python `str.split()` with no argument: split on whitespace runs,
dropping empty fields. -/
def splitWs (s : List Char) : List (List Char) :=
  (splitAux s).filter (fun g => !g.isEmpty)

/-- Python `' '.join(words)`. -/
def joinWords : List (List Char) → List Char
  | [] => []
  | [w] => w
  | w :: ws => w ++ ' ' :: joinWords ws

/-- Python `' '.join(s.split())`: collapse internal whitespace. -/
def collapseL (s : List Char) : List Char := joinWords (splitWs s)

/-- Fueled worker for `removeAll`; fuel at least the length of the string
makes it total and structurally recursive. -/
def removeAllFuel (tok : List Char) : Nat → List Char → List Char
  | _, [] => []
  | 0, s => s
  | n + 1, c :: cs =>
    if tok.isPrefixOf (c :: cs) then removeAllFuel tok n (cs.drop (tok.length - 1))
    else c :: removeAllFuel tok n cs

/-- Python `s.replace(tok, '')` for a non-empty `tok`: delete every
occurrence, scanning left to right, non-overlapping. -/
def removeAll (tok s : List Char) : List Char := removeAllFuel tok s.length s

/-- Decide whether `tok` occurs as a contiguous subsequence of `s`. -/
def containsSeq (tok : List Char) : List Char → Bool
  | [] => tok.isEmpty
  | c :: cs => tok.isPrefixOf (c :: cs) || containsSeq tok cs

/-- Noise tokens removed by `normalize_vendor_name`, in source order
(etl_advanced.py line 38). -/
def noiseTokens : List (List Char) :=
  ["menus".data, "menu".data, "menues".data, "menus ".data, "menu ".data]

/-- The token-removal loop of `normalize_vendor_name` (lines 38-39). -/
def noiseChain (s : List Char) : List Char :=
  noiseTokens.foldl (fun acc tok => removeAll tok acc) s

/-- Embedding of `etl_advanced.normalize_vendor_name` (lines 33-41).
Input is `Option String`: Python `None` and the empty string are falsy
and map to `"unknown"`; otherwise strip, lower-case, delete the noise
tokens in order, and collapse whitespace. -/
def normalize_vendor_name (name : Option String) : String :=
  match name with
  | none => "unknown"
  | some s =>
    if s = "" then "unknown"
    else String.mk (collapseL (noiseChain (lowerL (stripL s.data))))

/-- Embedding of `etl_advanced.vendor_id_from_name` (lines 43-46).
The md5 hex digest is an external library function, passed as the
parameter `md5hex`; the id is the first 8 characters of the digest of
the normalized name. -/
def vendor_id_from_name (md5hex : String → String) (name : Option String) : String :=
  String.mk ((md5hex (normalize_vendor_name name)).data.take 8)

example : normalize_vendor_name (some "Spice Villa Menu") = "spice villa" := by decide
example : normalize_vendor_name (some "Menu") = "" := by decide
example : normalize_vendor_name (some "") = "unknown" := by decide
example : normalize_vendor_name (some "Menues") = "es" := by decide

/-! ## Dynamic JSON-ish values -/

/-- Dynamic values carried by the raw JSON records.  Python dicts are
association lists whose first binding for a key wins. -/
inductive JVal where
  | null
  | bool (b : Bool)
  | num (q : ℚ)
  | str (s : String)
  | arr (elems : List JVal)
  | obj (fields : List (String × JVal))

/-- Dictionary lookup: `record.get(k)` returns `some v` when the key is
present (the stored value may itself be `JVal.null`, Python `None`). -/
def lookupJ (k : String) (fields : List (String × JVal)) : Option JVal :=
  match fields.find? (fun p => p.1 == k) with
  | some p => some p.2
  | none => none

/-- Digit accumulator: read a maximal run of decimal digits, returning
value, digit count, and the rest of the input. -/
def readDigitsAux : List Char → ℕ → ℕ → ℕ × ℕ × List Char
  | c :: cs, v, n =>
    if c.isDigit then readDigitsAux cs (10 * v + (c.toNat - 48)) (n + 1) else (v, n, c :: cs)
  | [], v, n => (v, n, [])

/-- Optional leading sign. -/
def readSign : List Char → ℚ × List Char
  | '+' :: cs => (1, cs)
  | '-' :: cs => (-1, cs)
  | cs => (1, cs)

/-- Model of Python `float(s)` on strings: optional surrounding
whitespace, optional sign, decimal digits with optional fraction and
exponent.  The special spellings `inf`/`nan` and digit underscores are
not modelled; no claim depends on them. -/
def parseFloat (s : String) : Option ℚ :=
  let cs := stripL s.data
  let p := readSign cs
  let m := readDigitsAux p.2 0 0
  let f : ℕ × ℕ × List Char :=
    match m.2.2 with
    | '.' :: rest => readDigitsAux rest 0 0
    | _ => (0, 0, m.2.2)
  if m.2.1 + f.2.1 = 0 then none
  else
    let mant : ℚ := p.1 * ((m.1 : ℚ) + (f.1 : ℚ) / 10 ^ f.2.1)
    match f.2.2 with
    | [] => some mant
    | 'e' :: rest =>
      let ep := readSign rest
      let ed := readDigitsAux ep.2 0 0
      if ed.2.1 = 0 ∨ ed.2.2 ≠ [] then none
      else some (if ep.1 = 1 then mant * 10 ^ ed.1 else mant / 10 ^ ed.1)
    | 'E' :: rest =>
      let ep := readSign rest
      let ed := readDigitsAux ep.2 0 0
      if ed.2.1 = 0 ∨ ed.2.2 ≠ [] then none
      else some (if ep.1 = 1 then mant * 10 ^ ed.1 else mant / 10 ^ ed.1)
    | _ => none

/-- Model of Python `float(v)` on a dynamic value: numbers pass through,
booleans become 0/1, strings are parsed, everything else raises (here:
`none`). -/
def pyFloat : JVal → Option ℚ
  | .num q => some q
  | .bool b => some (if b then 1 else 0)
  | .str s => parseFloat s
  | _ => none

/-- Truncation toward zero, as Python `int(float)`: on a reduced
fraction, integer T-division of numerator by denominator truncates
toward zero. -/
def truncQ (q : ℚ) : ℤ := Int.tdiv q.num (q.den : ℤ)

example : truncQ ((129 : ℚ) / 10) = 12 := by decide
example : truncQ ((-129 : ℚ) / 10) = -12 := by decide

/-- Embedding of `etl_advanced.coerce_price` (lines 48-54): `None` and
the empty string give `none` (only a string compares equal to `''`);
otherwise `int(float(val))`, with any coercion failure giving `none`. -/
def coerce_price (val : JVal) : Option ℤ :=
  match val with
  | .null => none
  | .str s => if s = "" then none else (parseFloat s).map truncQ
  | v => (pyFloat v).map truncQ

example : coerce_price (.str "") = none := by decide
example : coerce_price (.str "150") = some 150 := by decide
example : coerce_price (.str "12.9") = some 12 := by decide
example : coerce_price (.str "abc") = none := by decide
example : coerce_price (.num 0) = some 0 := by decide

/-! ## Nutrition field extractor (etl_advanced.extract_nutrition, lines 56-82) -/

/-- Loop `for k in keys: if k in nd: n[field] = nd.get(k)` — the LAST
present alias wins, regardless of its value. -/
def presentVals (nd : List (String × JVal)) (keys : List String) : Option JVal :=
  keys.foldl (fun acc k => match lookupJ k nd with | some v => some v | none => acc) none

/-- Loop `for alt in keys: if alt in record and field not in n: n[field] = record.get(alt)`
— fills from the FIRST present top-level alias, but only when the slot
is still absent. -/
def topFill (record : List (String × JVal)) (keys : List String) (cur : Option JVal) : Option JVal :=
  keys.foldl
    (fun acc k =>
      if acc.isSome then acc
      else match lookupJ k record with | some v => some v | none => acc) cur

/-- The nested `nutrition` dict, when the `nutrition` key holds a dict. -/
def nutritionObj (record : List (String × JVal)) : Option (List (String × JVal)) :=
  match lookupJ "nutrition" record with
  | some (.obj flds) => some flds
  | _ => none

def calAliases : List String := ["calories", "cal", "energy"]

def protAliases : List String := ["protein", "prot"]

def fatAliases : List String := ["fat"]

def carbAliases : List String := ["carbs", "carbohydrates"]

/-- Pre-coercion slot value for one macro field: nested dict aliases
(last present wins), then top-level aliases (first present wins, only if
the slot is still absent). -/
def rawField (record : List (String × JVal)) (nestedKeys topKeys : List String) : Option JVal :=
  let nested :=
    match nutritionObj record with
    | some nd => presentVals nd nestedKeys
    | none => none
  topFill record topKeys nested

/-- Coercion step (lines 77-81): `float(v) if v is not None and v != ''
else None`, with exceptions mapped to `None` (only a string compares
equal to `''`). -/
def coerceMacro : JVal → Option ℚ
  | .null => none
  | .str s => if s = "" then none else parseFloat s
  | v => pyFloat v

structure Nutrition where
  calories : Option ℚ
  protein : Option ℚ
  fat : Option ℚ
  carbs : Option ℚ
deriving DecidableEq

/-- Embedding of `etl_advanced.extract_nutrition`: total by construction
(the Python function never raises).  Top-level fallbacks exist only for
calories and protein. -/
def extract_nutrition (record : List (String × JVal)) : Nutrition :=
  { calories := (rawField record calAliases calAliases).bind coerceMacro
  , protein := (rawField record protAliases protAliases).bind coerceMacro
  , fat := (rawField record fatAliases []).bind coerceMacro
  , carbs := (rawField record carbAliases []).bind coerceMacro }

def isNullJ : JVal → Bool
  | .null => true
  | _ => false

/-- Modelled from the spec's words (claim C6): "first non-null wins per
field", trying the nested nutrition-object aliases before the top-level
alias fields, then coercing to float. -/
def specFirstNonNullField (record : List (String × JVal)) (nestedKeys topKeys : List String) : Option JVal :=
  let nestedCands :=
    match nutritionObj record with
    | some nd => nestedKeys.map (fun k => lookupJ k nd)
    | none => []
  ((nestedCands ++ topKeys.map (fun k => lookupJ k record)).filterMap id).find?
    (fun v => !isNullJ v)

/-- Spec-side calories extraction for the refinement comparison in C6. -/
def specCalories (record : List (String × JVal)) : Option ℚ :=
  (specFirstNonNullField record calAliases calAliases).bind coerceMacro

example :
    (extract_nutrition [("nutrition", JVal.obj [("calories", JVal.num 100), ("cal", JVal.num 200)])]).calories = some 200 := by decide

example :
    specCalories [("nutrition", JVal.obj [("calories", JVal.num 100), ("cal", JVal.num 200)])] = some 100 := by decide

/-! ## Canonical item rows

One row of the canonical item table, restricted to the columns the
imputation stages and the vendor aggregator read or write.  `none`
models a null cell (pandas `None`/`NaN`). -/

structure Item where
  vendor_id : String := ""
  vendor_name : String := ""
  item_id : String := ""
  title : Option String := none
  description : Option String := none
  price_cents : Option ℤ := none
  calories : Option ℚ := none
  protein : Option ℚ := none
  calories_imputed : Option Bool := none
  calories_confidence : Option ℚ := none
  calories_source : Option String := none
  local_match_score : Option ℚ := none
  local_match_name : Option String := none
  calories_imputed_model : Option Bool := none
  model_pred_calories : Option ℚ := none
deriving DecidableEq

/-! ## Fuzzy imputation stage (scripts/local_fuzzy_impute.py) -/

/-- Embedding of `local_fuzzy_impute.normalize` (lines 26-29): `None`
becomes the empty string, otherwise lower-case, strip and collapse
whitespace. -/
def fzNormalize (s : Option String) : String :=
  match s with
  | none => ""
  | some t => String.mk (collapseL (stripL (lowerL t.data)))

/-- A reference nutrition entry as produced by `load_nutrition_db`:
a normalized name and an optional calorie value (the raw record is
dropped; nothing reads it downstream). -/
structure DbEntry where
  name : String
  calories : Option ℚ
deriving DecidableEq

/-- Python `row.get('title') or row.get('item_id') or ''`. -/
def rowTitleRaw (r : Item) : String :=
  match r.title with
  | some t => if t = "" then r.item_id else t
  | none => r.item_id

/-- The normalized title the fuzzy matcher searches with (line 107). -/
def rowTitle (r : Item) : String := fzNormalize (some (rowTitleRaw r))

/-- Embedding of `best_match` (lines 92-96) on top of
`rapidfuzz.process.extractOne`: the scorer is an external library
function, taken as the parameter `score`; `extractOne` returns the
highest-scoring name, the earliest on ties, and `none` for an empty
name list. -/
def bestMatch (score : String → String → ℚ) (title : String) (names : List String) : Option (String × ℚ) :=
  names.foldl
    (fun acc nm =>
      match acc with
      | none => some (nm, score title nm)
      | some p => if score title nm > p.2 then some (nm, score title nm) else acc)
    none

/-- The `for d in db: if d['name'] == match_name: ... break` loop
(lines 114-117): calories of the first entry bearing the name. -/
def findCal (db : List DbEntry) (nm : String) : Option ℚ :=
  match db.find? (fun d => d.name == nm) with
  | some d => d.calories
  | none => none

def MED_THRESH : ℚ := 75

def HIGH_THRESH : ℚ := 90

/-- One step of Python `s.split(',')` (processed by `List.foldr`);
empty fields are kept. -/
def splitCommaStep (c : Char) (acc : List (List Char)) : List (List Char) :=
  if c = ',' then [] :: acc
  else
    match acc with
    | [] => [[c]]
    | g :: gs => (c :: g) :: gs

/-- Python `s.split(',')`. -/
def splitComma (s : String) : List String :=
  (s.data.foldr splitCommaStep [[]]).map String.mk

/-- The optional vendor filter (lines 101-103): rows pass when no
filter is given (or the argument is the falsy empty string), or when
the row's lower-cased vendor name is among the stripped, lower-cased
comma-separated filter entries. -/
def vendorPass (vendors : Option String) (r : Item) : Bool :=
  match vendors with
  | none => true
  | some vs =>
    if vs = "" then true
    else ((splitComma vs).map (fun v => String.mk (lowerL (stripL v.data)))).contains
      (String.mk (lowerL r.vendor_name.data))

/-- The per-row decision of `impute` (lines 106-118): `some (name,
score, calories)` exactly when the row gets imputed, `none` when it is
left unchanged.  Mirrors, in order: the null-calories mask, the vendor
filter, the empty-title `continue`, `best_match`, the truthiness test
`if match_name` plus the threshold on the match, the null-calories
reference lookup, and the final threshold re-check. -/
def fuzzyDecision (score : String → String → ℚ) (db : List DbEntry) (vendors : Option String) (r : Item) :
    Option (String × ℚ × ℚ) :=
  if r.calories.isSome then none
  else if !(vendorPass vendors r) then none
  else
    let title := rowTitle r
    if title = "" then none
    else
      match bestMatch score title (db.map (fun d => d.name)) with
      | none => none
      | some (mn, sc) =>
        let chosen := if mn ≠ "" ∧ MED_THRESH ≤ sc then findCal db mn else none
        match chosen with
        | some c => if MED_THRESH ≤ sc then some (mn, sc, c) else none
        | none => none

/-- The field assignments of `impute` (lines 119-126) applied to one
row; rows with a `none` decision are returned unchanged. -/
def imputeRow (score : String → String → ℚ) (db : List DbEntry) (vendors : Option String) (r : Item) : Item :=
  match fuzzyDecision score db vendors r with
  | none => r
  | some (mn, sc, c) =>
    { r with
        calories := some c
        calories_imputed := some true
        calories_confidence := some (if HIGH_THRESH ≤ sc then 0.9 else 0.6)
        calories_source := some "local_indian_nutrition"
        local_match_score := some sc
        local_match_name := some mn }

/-- Embedding of `local_fuzzy_impute.impute` on the item table. -/
def impute (score : String → String → ℚ) (db : List DbEntry) (vendors : Option String) (df : List Item) :
    List Item :=
  df.map (imputeRow score db vendors)

def imputeCount (score : String → String → ℚ) (db : List DbEntry) (vendors : Option String) (df : List Item) : ℕ :=
  df.countP (fun r => (fuzzyDecision score db vendors r).isSome)

def imputeScores (score : String → String → ℚ) (db : List DbEntry) (vendors : Option String) (df : List Item) :
    List ℚ :=
  df.filterMap (fun r => (fuzzyDecision score db vendors r).map (fun t => t.2.1))

/-- Average accepted match score, 0 when nothing was imputed (line 127). -/
def avgScore (scores : List ℚ) : ℚ :=
  if scores.length = 0 then 0 else scores.sum / scores.length

/-! ## Metrics record -/

/-- Python `metrics.update({k: v})` on the parsed metrics record: the
value at `k` is replaced in place when present, appended otherwise
(records model dicts, so keys are unique). -/
def dictUpdate (d : List (String × JVal)) (k : String) (v : JVal) : List (String × JVal) :=
  if d.any (fun p => p.1 == k) then d.map (fun p => if p.1 == k then (k, v) else p)
  else d ++ [(k, v)]

/-- Floor of a rational. -/
def floorQ (q : ℚ) : ℤ := Int.fdiv q.num (q.den : ℤ)

/-- Round half to even, as Python's builtin `round`. -/
def bankerRound (q : ℚ) : ℤ :=
  let f := floorQ q
  let r := q - (f : ℚ)
  if r < 1 / 2 then f
  else if 1 / 2 < r then f + 1
  else if f % 2 = 0 then f else f + 1

/-- Python `round(q, 2)`, idealized to exact rational arithmetic (the
code rounds IEEE floats). -/
def round2 (q : ℚ) : ℚ := (bankerRound (q * 100) : ℚ) / 100

example : round2 (100 * 1 / 3) = mkRat 3333 100 := by decide
example : round2 100 = 100 := by decide

/-- Embedding of `etl_advanced.compute_metrics` (lines 150-164): the
flat ingest-metrics record.  The wall-clock `ingest_ts` is the
parameter `ts`. -/
def computeMetricsRecord (items : List Item) (ts : String) : List (String × JVal) :=
  let total := items.length
  let vendors := (items.map (fun r => r.vendor_id)).dedup.length
  let wCal := items.countP (fun r => r.calories.isSome)
  let wProt := items.countP (fun r => r.protein.isSome)
  [ ("total_items", JVal.num total)
  , ("vendors", JVal.num vendors)
  , ("items_with_calories", JVal.num wCal)
  , ("items_with_protein", JVal.num wProt)
  , ("pct_with_calories", JVal.num (if total = 0 then 0 else round2 (100 * wCal / total)))
  , ("pct_with_protein", JVal.num (if total = 0 then 0 else round2 (100 * wProt / total)))
  , ("ingest_ts", JVal.str ts) ]

/-- The metrics write of `etl_advanced.main` (lines 226-228):
`Path(metrics_path).write_text(json.dumps(metrics))` replaces the file
wholesale — the pre-existing record `old` is ignored, not merged. -/
def etlWriteMetrics (_old : List (String × JVal)) (items : List Item) (ts : String) :
    List (String × JVal) :=
  computeMetricsRecord items ts

/-- The metrics merge of `train_text_regressor.main` (lines 78-92). -/
def trainMetricsUpdate (old : List (String × JVal)) (stats : JVal) : List (String × JVal) :=
  dictUpdate old "text_regressor" stats

/-! ## Pipeline stores and stage main functions -/

/-- The files the imputation stages read and write.  The persisted
sklearn vectorizer and regressor are opaque functions (absent file =
`none`); `nutDb` is the parsed reference corpus (`load_nutrition_db`
returns `[]` when the file is missing). -/
structure Store where
  itemsParquet : Option (List Item)
  nutDb : List DbEntry
  vectFile : Option (String → List ℚ)
  modelFile : Option (List ℚ → ℚ)
  outLocalCsv : Option (List Item) := none
  outLocalParquet : Option (List Item) := none
  outModelCsv : Option (List Item) := none
  outModelParquet : Option (List Item) := none
  metricsJson : Option (List (String × JVal)) := none

/-- Embedding of `local_fuzzy_impute.main` (lines 130-179): guard on a
missing item table and an empty reference corpus, impute, write both
enriched outputs, and merge the stage's metrics sub-object. -/
def fuzzyMain (score : String → String → ℚ) (vendorsArg : Option String) (s : Store) : Store :=
  match s.itemsParquet with
  | none => s
  | some df =>
    if s.nutDb.isEmpty then s
    else
      let db := s.nutDb
      let before : ℕ := df.countP (fun r => r.calories.isNone)
      let dfNew := impute score db vendorsArg df
      let after : ℕ := dfNew.countP (fun r => r.calories.isNone)
      let stats : JVal := JVal.obj
        [ ("imputed", JVal.num (imputeCount score db vendorsArg df))
        , ("avg_score", JVal.num (avgScore (imputeScores score db vendorsArg df)))
        , ("before_missing", JVal.num before)
        , ("after_missing", JVal.num after)
        , ("vendors_filtered",
            JVal.str (match vendorsArg with | some v => if v = "" then "ALL" else v | none => "ALL")) ]
      { s with
          outLocalCsv := some dfNew
          outLocalParquet := some dfNew
          metricsJson := some (dictUpdate (s.metricsJson.getD []) "local_fuzzy_impute" stats) }

/-- Embedding of `impute_with_model.build_text_for_df` (lines 21-28)
for one row. -/
def buildText (r : Item) : String :=
  String.mk (stripL
    ((r.title.getD "" ++ " " ++ r.vendor_name ++ " " ++
      (match r.description with | some d => d ++ " " | none => "")).data))

/-- The row update of `impute_with_model.main` (lines 47-62): rows with
null calories receive the model prediction and provenance fields; all
other rows are untouched. -/
def modelUpdateRow (v : String → List ℚ) (m : List ℚ → ℚ) (r : Item) : Item :=
  if r.calories.isNone then
    let p := m (v (buildText r))
    { r with
        model_pred_calories := some p
        calories := some p
        calories_imputed_model := some true
        calories_source := some "model_regressor"
        calories_confidence := some 0.7 }
  else r

/-- Embedding of `impute_with_model.main` (lines 30-85): guard on a
missing item table and missing model artifacts; otherwise impute the
rows that are null in `data/items.parquet` (the RAW canonical table —
not the fuzzy stage's enriched output), write both model outputs, and
merge the stage's metrics sub-object. -/
def modelMain (s : Store) : Store :=
  match s.itemsParquet with
  | none => s
  | some df =>
    match s.vectFile, s.modelFile with
    | some v, some m =>
      let maskCount := df.countP (fun r => r.calories.isNone)
      let dfNew := df.map (modelUpdateRow v m)
      { s with
          outModelCsv := some dfNew
          outModelParquet := some dfNew
          metricsJson := some (dictUpdate (s.metricsJson.getD []) "model_impute"
            (JVal.obj
              [ ("imputed_count", JVal.num maskCount)
              , ("calories_source", JVal.str "model_regressor") ])) }
    | _, _ => s

/-! ## Vendor aggregates (etl_advanced.compute_vendor_aggregates) -/

/-- Embedding of the inner `price_bucket` (lines 167-174): null maps to
`unknown`, otherwise the fixed thresholds at 100 and 300. -/
def price_bucket (p : Option ℤ) : String :=
  match p with
  | none => "unknown"
  | some v => if v < 100 then "cheap" else if v < 300 then "medium" else "expensive"

def insertSorted (x : ℚ) : List ℚ → List ℚ
  | [] => [x]
  | y :: ys => if x ≤ y then x :: y :: ys else y :: insertSorted x ys

def sortQ (l : List ℚ) : List ℚ := l.foldr insertSorted []

def meanQ (l : List ℚ) : ℚ := l.sum / l.length

/-- Pandas median on a non-empty list: middle of the sorted values, or
the mean of the two middles. -/
def medianQ (l : List ℚ) : ℚ :=
  let s := sortQ l
  let n := s.length
  if n % 2 = 1 then s.getD (n / 2) 0
  else (s.getD (n / 2 - 1) 0 + s.getD (n / 2) 0) / 2

def minQ : List ℚ → ℚ
  | [] => 0
  | x :: xs => xs.foldl (fun a b => if b < a then b else a) x

def maxQ : List ℚ → ℚ
  | [] => 0
  | x :: xs => xs.foldl (fun a b => if a < b then b else a) x

/-- Pandas sample variance (`ddof = 1`).  For a singleton list the code
produces float NaN; here the rational division by zero gives the junk
value 0 — no claim touches that case. -/
def sampleVar (l : List ℚ) : ℚ :=
  ((l.map (fun x => (x - meanQ l) ^ 2)).sum) / ((l.length : ℚ) - 1)

def calsOf (g : List Item) : List ℚ := g.filterMap (fun r => r.calories)

def protsOf (g : List Item) : List ℚ := g.filterMap (fun r => r.protein)

def pricesOf (g : List Item) : List ℚ := g.filterMap (fun r => r.price_cents.map (fun z => (z : ℚ)))

structure VendorAgg where
  item_count : ℕ
  items_with_nutrition_count : ℕ
  percent_with_nutrition : ℚ
  avg_calories : Option ℚ
  median_calories : Option ℚ
  min_calories : Option ℚ
  max_calories : Option ℚ
  sum_protein : ℚ
  avg_protein : Option ℚ
  price_avg : Option ℚ
  price_median : Option ℚ
  price_stddev : Option ℚ
  cheap_pct : ℚ
  medium_pct : ℚ
  expensive_pct : ℚ
  missing_nutrition_flag : Bool
  duplicated_vendor_flag : Bool
deriving DecidableEq

/-- Embedding of the per-group aggregation lambda of
`etl_advanced.compute_vendor_aggregates` (lines 177-195), applied to
one vendor group.  `price_stddev` is modelled as the sample variance:
the code takes its square root, which is null exactly when the
variance is, and every claim about it concerns only nullness and which
inputs enter the statistic. -/
def vendorAggOfGroup (g : List Item) : VendorAgg :=
  let cals := calsOf g
  let prots := protsOf g
  let prices := pricesOf g
  let n := g.length
  { item_count := n
  , items_with_nutrition_count := cals.length
  , percent_with_nutrition := if n = 0 then 0 else round2 (100 * cals.length / n)
  , avg_calories := if cals.isEmpty then none else some (meanQ cals)
  , median_calories := if cals.isEmpty then none else some (medianQ cals)
  , min_calories := if cals.isEmpty then none else some (minQ cals)
  , max_calories := if cals.isEmpty then none else some (maxQ cals)
  , sum_protein := if prots.isEmpty then 0 else prots.sum
  , avg_protein := if prots.isEmpty then none else some (meanQ prots)
  , price_avg := if prices.isEmpty then none else some (meanQ prices)
  , price_median := if prices.isEmpty then none else some (medianQ prices)
  , price_stddev := if prices.isEmpty then none else some (sampleVar prices)
  , cheap_pct :=
      if n = 0 then 0
      else round2 (100 * (g.countP (fun r => price_bucket r.price_cents == "cheap")) / n)
  , medium_pct :=
      if n = 0 then 0
      else round2 (100 * (g.countP (fun r => price_bucket r.price_cents == "medium")) / n)
  , expensive_pct :=
      if n = 0 then 0
      else round2 (100 * (g.countP (fun r => price_bucket r.price_cents == "expensive")) / n)
  , missing_nutrition_flag := g.all (fun r => r.calories.isNone)
  , duplicated_vendor_flag := false }

/-! ## Concrete instantiation data for witnesses and counterexamples -/

/-- Stand-in for the external rapidfuzz `WRatio` scorer in concrete
runs: identical strings score 100 (a documented property of `WRatio`),
everything else 0. -/
def exactScorer : String → String → ℚ := fun a b => if a = b then 100 else 0

def itemDal : Item :=
  { vendor_id := "v1", vendor_name := "spice villa", item_id := "i1"
  , title := some "Dal", price_cents := some 150, protein := some 10 }

def dbDal : List DbEntry := [{ name := "dal", calories := some 100 }]

def store0 : Store :=
  { itemsParquet := some [itemDal], nutDb := dbDal
  , vectFile := some (fun _ => [1]), modelFile := some (fun _ => 42) }

example :
    (fuzzyMain exactScorer none store0).outLocalParquet =
      some [{ itemDal with
                calories := some 100, calories_imputed := some true
                calories_confidence := some 0.9
                calories_source := some "local_indian_nutrition"
                local_match_score := some 100, local_match_name := some "dal" }] := by
  decide

example :
    (modelMain (fuzzyMain exactScorer none store0)).outModelParquet =
      some [{ itemDal with
                model_pred_calories := some 42, calories := some 42
                calories_imputed_model := some true
                calories_source := some "model_regressor"
                calories_confidence := some 0.7 }] := by
  decide

example :
    ((fuzzyMain exactScorer none store0).metricsJson.getD []).length = 1 := by decide

/-! ## Structural lemmas about the normalization machinery -/

theorem removeAllFuel_congr (tok : List Char) :
    ∀ (n m : ℕ) (s : List Char), s.length ≤ n → s.length ≤ m →
      removeAllFuel tok n s = removeAllFuel tok m s := by
  intro n
  induction n with
  | zero =>
    intro m s hn _
    have hs : s = [] := List.length_eq_zero.mp (Nat.le_zero.mp hn)
    subst hs
    cases m <;> rfl
  | succ n ih =>
    intro m s hn hm
    cases s with
    | nil => cases m <;> rfl
    | cons c cs =>
      cases m with
      | zero => simp at hm
      | succ m' =>
        simp only [removeAllFuel]
        by_cases hp : tok.isPrefixOf (c :: cs) = true
        · rw [if_pos hp, if_pos hp]
          apply ih
          · calc (cs.drop (tok.length - 1)).length ≤ cs.length := by
                  simp [List.length_drop]
                _ ≤ n := by simpa using hn
          · calc (cs.drop (tok.length - 1)).length ≤ cs.length := by
                  simp [List.length_drop]
                _ ≤ m' := by simpa using hm
        · rw [if_neg hp, if_neg hp, ih m' cs (by simpa using hn) (by simpa using hm)]

theorem removeAll_cons_neg {tok : List Char} {c : Char} {cs : List Char}
    (h : tok.isPrefixOf (c :: cs) = false) :
    removeAll tok (c :: cs) = c :: removeAll tok cs := by
  show removeAllFuel tok (c :: cs).length (c :: cs) = c :: removeAllFuel tok cs.length cs
  simp only [List.length_cons, removeAllFuel, h, if_false, Bool.false_eq_true]

theorem removeAll_skip {tok : List Char} {c : Char} {cs : List Char}
    (h : tok.isPrefixOf (c :: cs) = true) :
    removeAll tok (c :: cs) = removeAll tok (cs.drop (tok.length - 1)) := by
  show removeAllFuel tok (c :: cs).length (c :: cs) = _
  simp only [List.length_cons, removeAllFuel, h, if_true]
  exact removeAllFuel_congr tok cs.length (cs.drop (tok.length - 1)).length _
    (by simp [List.length_drop]) (le_refl _)

theorem containsSeq_false_head {tok : List Char} {c : Char} {cs : List Char}
    (h : containsSeq tok (c :: cs) = false) :
    tok.isPrefixOf (c :: cs) = false ∧ containsSeq tok cs = false := by
  simp only [containsSeq, Bool.or_eq_false_iff] at h
  exact h

theorem removeAll_eq_self {tok : List Char} :
    ∀ {s : List Char}, containsSeq tok s = false → removeAll tok s = s := by
  intro s
  induction s with
  | nil => intro _; rfl
  | cons c cs ih =>
    intro h
    obtain ⟨h1, h2⟩ := containsSeq_false_head h
    rw [removeAll_cons_neg h1, ih h2]

theorem containsSeq_mono {p tok : List Char} (hpre : p.isPrefixOf tok = true) :
    ∀ {s : List Char}, containsSeq tok s = true → containsSeq p s = true := by
  intro s
  induction s with
  | nil =>
    intro h
    simp only [containsSeq, List.isEmpty_iff] at h ⊢
    subst h
    have := List.isPrefixOf_iff_prefix.mp hpre
    simpa [List.prefix_nil] using this
  | cons c cs ih =>
    intro h
    simp only [containsSeq, Bool.or_eq_true] at h ⊢
    rcases h with h | h
    · left
      have h1 := List.isPrefixOf_iff_prefix.mp hpre
      have h2 := List.isPrefixOf_iff_prefix.mp h
      exact List.isPrefixOf_iff_prefix.mpr (h1.trans h2)
    · right; exact ih h

theorem containsSeq_mem {tok : List Char} {c : Char} (hc : c ∈ tok) :
    ∀ {s : List Char}, containsSeq tok s = true → c ∈ s := by
  intro s
  induction s with
  | nil =>
    intro h
    simp only [containsSeq, List.isEmpty_iff] at h
    subst h
    simp at hc
  | cons b bs ih =>
    intro h
    simp only [containsSeq, Bool.or_eq_true] at h
    rcases h with h | h
    · exact (List.isPrefixOf_iff_prefix.mp h).subset hc
    · exact List.mem_cons_of_mem _ (ih h)

theorem mem_removeAllFuel {tok : List Char} {c : Char} :
    ∀ (n : ℕ) (s : List Char), c ∈ removeAllFuel tok n s → c ∈ s := by
  intro n
  induction n with
  | zero =>
    intro s h
    cases s with
    | nil => simp [removeAllFuel] at h
    | cons b bs => simp only [removeAllFuel] at h; exact h
  | succ n ih =>
    intro s h
    cases s with
    | nil => simp [removeAllFuel] at h
    | cons b bs =>
      simp only [removeAllFuel] at h
      by_cases hp : tok.isPrefixOf (b :: bs)
      · simp only [hp, if_true] at h
        exact List.mem_cons_of_mem _ (List.mem_of_mem_drop (ih _ h))
      · simp only [hp, if_false] at h
        rcases List.mem_cons.mp h with h | h
        · exact h ▸ List.mem_cons_self _ _
        · exact List.mem_cons_of_mem _ (ih _ h)

theorem mem_removeAll {tok : List Char} {c : Char} {s : List Char}
    (h : c ∈ removeAll tok s) : c ∈ s :=
  mem_removeAllFuel _ _ h

theorem splitAux_cons_ws {c : Char} {s : List Char} (h : pyWs c = true) :
    splitAux (c :: s) = [] :: splitAux s := by
  simp [splitAux, splitStep, h]

theorem splitAux_cons_nws_nil {c : Char} {s : List Char} (h : pyWs c = false)
    (h2 : splitAux s = []) : splitAux (c :: s) = [[c]] := by
  show splitStep c (splitAux s) = _
  rw [h2]
  simp [splitStep, h]

theorem splitAux_cons_nws_cons {c : Char} {s g : List Char} {gs : List (List Char)}
    (h : pyWs c = false) (h2 : splitAux s = g :: gs) :
    splitAux (c :: s) = (c :: g) :: gs := by
  show splitStep c (splitAux s) = _
  rw [h2]
  simp [splitStep, h]

theorem splitAux_append_nil :
    ∀ (w r : List Char), (∀ c ∈ w, pyWs c = false) → w ≠ [] → splitAux r = [] →
      splitAux (w ++ r) = [w] := by
  intro w
  induction w with
  | nil => intro r _ hne _; exact absurd rfl hne
  | cons a w ih =>
    intro r h _ hr
    have ha : pyWs a = false := h a (List.mem_cons_self _ _)
    cases w with
    | nil => exact splitAux_cons_nws_nil ha hr
    | cons b w' =>
      have hw : ∀ c ∈ b :: w', pyWs c = false := fun c hc => h c (List.mem_cons_of_mem _ hc)
      have ih' := ih r hw (by simp) hr
      exact splitAux_cons_nws_cons ha ih'

theorem splitAux_append_cons :
    ∀ (w r g : List Char) (gs : List (List Char)),
      (∀ c ∈ w, pyWs c = false) → w ≠ [] → splitAux r = g :: gs →
      splitAux (w ++ r) = (w ++ g) :: gs := by
  intro w
  induction w with
  | nil => intro r g gs _ hne _; exact absurd rfl hne
  | cons a w ih =>
    intro r g gs h _ hr
    have ha : pyWs a = false := h a (List.mem_cons_self _ _)
    cases w with
    | nil => exact splitAux_cons_nws_cons ha hr
    | cons b w' =>
      have hw : ∀ c ∈ b :: w', pyWs c = false := fun c hc => h c (List.mem_cons_of_mem _ hc)
      have ih' := ih r g gs hw (by simp) hr
      exact splitAux_cons_nws_cons ha ih'

theorem joinWords_cons_of_ne_nil (w : List Char) {ws : List (List Char)} (h : ws ≠ []) :
    joinWords (w :: ws) = w ++ ' ' :: joinWords ws := by
  cases ws with
  | nil => exact absurd rfl h
  | cons _ _ => rfl

theorem splitAux_no_ws :
    ∀ {s : List Char} {g : List Char} {c : Char}, g ∈ splitAux s → c ∈ g → pyWs c = false := by
  intro s
  induction s with
  | nil => intro g c hg _; simp [splitAux] at hg
  | cons b bs ih =>
    intro g c hg hc
    by_cases hb : pyWs b = true
    · rw [splitAux_cons_ws hb] at hg
      rcases List.mem_cons.mp hg with h | h
      · subst h; simp at hc
      · exact ih h hc
    · have hb' : pyWs b = false := by simpa using hb
      rcases hsa : splitAux bs with _ | ⟨g', gs⟩
      · rw [splitAux_cons_nws_nil hb' hsa] at hg
        simp only [List.mem_singleton] at hg
        subst hg
        rcases List.mem_singleton.mp hc with rfl
        exact hb'
      · rw [splitAux_cons_nws_cons hb' hsa] at hg
        rcases List.mem_cons.mp hg with h | h
        · subst h
          rcases List.mem_cons.mp hc with rfl | h
          · exact hb'
          · exact ih (by rw [hsa]; exact List.mem_cons_self _ _) h
        · exact ih (by rw [hsa]; exact List.mem_cons_of_mem _ h) hc

theorem mem_splitAux :
    ∀ {s : List Char} {g : List Char} {c : Char}, g ∈ splitAux s → c ∈ g → c ∈ s := by
  intro s
  induction s with
  | nil => intro g c hg _; simp [splitAux] at hg
  | cons b bs ih =>
    intro g c hg hc
    by_cases hb : pyWs b = true
    · rw [splitAux_cons_ws hb] at hg
      rcases List.mem_cons.mp hg with h | h
      · subst h; simp at hc
      · exact List.mem_cons_of_mem _ (ih h hc)
    · have hb' : pyWs b = false := by simpa using hb
      rcases hsa : splitAux bs with _ | ⟨g', gs⟩
      · rw [splitAux_cons_nws_nil hb' hsa] at hg
        simp only [List.mem_singleton] at hg
        subst hg
        rcases List.mem_singleton.mp hc with rfl
        exact List.mem_cons_self _ _
      · rw [splitAux_cons_nws_cons hb' hsa] at hg
        rcases List.mem_cons.mp hg with h | h
        · subst h
          rcases List.mem_cons.mp hc with rfl | h
          · exact List.mem_cons_self _ _
          · exact List.mem_cons_of_mem _ (ih (by rw [hsa]; exact List.mem_cons_self _ _) h)
        · exact List.mem_cons_of_mem _ (ih (by rw [hsa]; exact List.mem_cons_of_mem _ h) hc)

theorem splitWs_valid {s g : List Char} (hg : g ∈ splitWs s) :
    g ≠ [] ∧ ∀ c ∈ g, pyWs c = false := by
  have h1 := List.mem_of_mem_filter hg
  have h2 := List.of_mem_filter hg
  refine ⟨?_, fun c hc => splitAux_no_ws h1 hc⟩
  intro hnil
  subst hnil
  simp at h2

theorem splitWs_joinWords :
    ∀ (ws : List (List Char)), (∀ w ∈ ws, w ≠ [] ∧ ∀ c ∈ w, pyWs c = false) →
      splitWs (joinWords ws) = ws := by
  intro ws
  induction ws with
  | nil => intro _; rfl
  | cons w ws ih =>
    intro h
    obtain ⟨hw1, hw2⟩ := h w (List.mem_cons_self _ _)
    have hwe : (!w.isEmpty) = true := by
      cases w
      · exact absurd rfl hw1
      · rfl
    cases ws with
    | nil =>
      show splitWs (joinWords [w]) = [w]
      have ha : splitAux (w ++ []) = [w] := splitAux_append_nil w [] hw2 hw1 rfl
      rw [List.append_nil] at ha
      show (splitAux w).filter _ = [w]
      rw [ha, List.filter_cons, if_pos hwe]
      rfl
    | cons w2 ws' =>
      rw [joinWords_cons_of_ne_nil w (by simp)]
      have hrest : ∀ w' ∈ w2 :: ws', w' ≠ [] ∧ ∀ c ∈ w', pyWs c = false :=
        fun w' hw' => h w' (List.mem_cons_of_mem _ hw')
      have ihr := ih hrest
      have h1 : splitAux (' ' :: joinWords (w2 :: ws')) =
          [] :: splitAux (joinWords (w2 :: ws')) := splitAux_cons_ws (by decide)
      have h2 := splitAux_append_cons w (' ' :: joinWords (w2 :: ws')) [] _ hw2 hw1 h1
      show (splitAux (w ++ ' ' :: joinWords (w2 :: ws'))).filter _ = _
      rw [h2, List.append_nil, List.filter_cons, if_pos hwe]
      exact congrArg (w :: ·) ihr

theorem collapseL_idem (s : List Char) : collapseL (collapseL s) = collapseL s := by
  show joinWords (splitWs (joinWords (splitWs s))) = _
  rw [splitWs_joinWords (splitWs s) (fun w hw => splitWs_valid hw)]
  rfl

theorem dropWhile_eq_self_of_head {l : List Char}
    (h : ∀ c, l.head? = some c → pyWs c = false) : l.dropWhile pyWs = l := by
  cases l with
  | nil => rfl
  | cons c cs =>
    rw [List.dropWhile_cons]
    simp [h c rfl]

theorem joinWords_ne_nil {ws : List (List Char)} (h1 : ws ≠ [])
    (h2 : ∀ w ∈ ws, w ≠ []) : joinWords ws ≠ [] := by
  cases ws with
  | nil => exact absurd rfl h1
  | cons w ws' =>
    cases ws' with
    | nil => exact h2 w (List.mem_cons_self _ _)
    | cons _ _ => simp [joinWords]

theorem head?_joinWords {ws : List (List Char)}
    (hv : ∀ w ∈ ws, w ≠ [] ∧ ∀ c ∈ w, pyWs c = false) :
    ∀ c, (joinWords ws).head? = some c → pyWs c = false := by
  cases ws with
  | nil => intro c h; simp [joinWords] at h
  | cons w ws' =>
    obtain ⟨h1, h2⟩ := hv w (List.mem_cons_self _ _)
    cases w with
    | nil => exact absurd rfl h1
    | cons a w' =>
      intro c hc
      cases ws' with
      | nil =>
        simp only [joinWords, List.head?_cons, Option.some.injEq] at hc
        subst hc
        exact h2 a (List.mem_cons_self _ _)
      | cons w2 ws'' =>
        rw [joinWords_cons_of_ne_nil _ (by simp)] at hc
        simp only [List.cons_append, List.head?_cons, Option.some.injEq] at hc
        subst hc
        exact h2 a (List.mem_cons_self _ _)

theorem getLast?_joinWords {ws : List (List Char)}
    (hv : ∀ w ∈ ws, w ≠ [] ∧ ∀ c ∈ w, pyWs c = false) :
    ∀ c, (joinWords ws).getLast? = some c → pyWs c = false := by
  induction ws with
  | nil => intro c h; simp [joinWords] at h
  | cons w ws' ih =>
    intro c hc
    obtain ⟨h1, h2⟩ := hv w (List.mem_cons_self _ _)
    cases ws' with
    | nil =>
      have hw : w.getLast? = some c := hc
      obtain ⟨ys, hys⟩ := List.getLast?_eq_some_iff.mp hw
      exact h2 c (by rw [hys]; exact List.mem_append_right ys (List.mem_singleton_self c))
    | cons w2 ws'' =>
      rw [joinWords_cons_of_ne_nil w (by simp)] at hc
      rw [List.getLast?_append_of_ne_nil _ (by simp)] at hc
      have hjne : joinWords (w2 :: ws'') ≠ [] :=
        joinWords_ne_nil (by simp) (fun w' hw' => (hv w' (List.mem_cons_of_mem _ hw')).1)
      rw [show (' ' :: joinWords (w2 :: ws'')) = [' '] ++ joinWords (w2 :: ws'') from rfl,
        List.getLast?_append_of_ne_nil _ hjne] at hc
      exact ih (fun w' hw' => hv w' (List.mem_cons_of_mem _ hw')) c hc

theorem stripL_collapseL (s : List Char) : stripL (collapseL s) = collapseL s := by
  have hv : ∀ w ∈ splitWs s, w ≠ [] ∧ ∀ c ∈ w, pyWs c = false := fun w hw => splitWs_valid hw
  have h1 : (collapseL s).dropWhile pyWs = collapseL s :=
    dropWhile_eq_self_of_head (head?_joinWords hv)
  have h2 : (collapseL s).reverse.dropWhile pyWs = (collapseL s).reverse := by
    apply dropWhile_eq_self_of_head
    intro c hc
    rw [List.head?_reverse] at hc
    exact getLast?_joinWords hv c hc
  show (((collapseL s).dropWhile pyWs).reverse.dropWhile pyWs).reverse = collapseL s
  rw [h1, h2, List.reverse_reverse]

theorem lowerChar_idem (c : Char) : lowerChar (lowerChar c) = lowerChar c := by
  by_cases h : 65 ≤ c.toNat ∧ c.toNat ≤ 90
  · have e : lowerChar c = Char.ofNat (c.toNat + 32) := by unfold lowerChar; rw [if_pos h]
    rw [e]
    obtain ⟨h1, h2⟩ := h
    revert h1 h2
    generalize c.toNat = n
    intro h1 h2
    interval_cases n <;> decide
  · have e : lowerChar c = c := by unfold lowerChar; rw [if_neg h]
    rw [e, e]

theorem mem_joinWords {ws : List (List Char)} {c : Char} (h : c ∈ joinWords ws) :
    (∃ w ∈ ws, c ∈ w) ∨ c = ' ' := by
  induction ws with
  | nil => simp [joinWords] at h
  | cons w ws' ih =>
    cases ws' with
    | nil => exact Or.inl ⟨w, List.mem_cons_self _ _, h⟩
    | cons w2 ws'' =>
      rw [joinWords_cons_of_ne_nil w (by simp)] at h
      rcases List.mem_append.mp h with h | h
      · exact Or.inl ⟨w, List.mem_cons_self _ _, h⟩
      · rcases List.mem_cons.mp h with h | h
        · exact Or.inr h
        · rcases ih h with ⟨w', hw', hc⟩ | h
          · exact Or.inl ⟨w', List.mem_cons_of_mem _ hw', hc⟩
          · exact Or.inr h

theorem mem_collapseL {s : List Char} {c : Char} (h : c ∈ collapseL s) : c ∈ s ∨ c = ' ' := by
  rcases mem_joinWords h with ⟨w, hw, hc⟩ | h
  · exact Or.inl (mem_splitAux (List.mem_of_mem_filter hw) hc)
  · exact Or.inr h

theorem lowerL_fixed {s : List Char} (h : ∀ c ∈ s, lowerChar c = c) : lowerL s = s := by
  induction s with
  | nil => rfl
  | cons c cs ih =>
    show lowerChar c :: lowerL cs = c :: cs
    rw [h c (List.mem_cons_self _ _), ih (fun c hc => h c (List.mem_cons_of_mem _ hc))]

theorem noiseChain_eq_self {s : List Char}
    (hfree : containsSeq "menu".data s = false) : noiseChain s = s := by
  have h : ∀ tok : List Char, "menu".data.isPrefixOf tok = true → containsSeq tok s = false := by
    intro tok hp
    by_cases hc : containsSeq tok s = true
    · have h2 := containsSeq_mono hp hc
      rw [hfree] at h2
      exact absurd h2 (by simp)
    · simpa using hc
  simp only [noiseChain, noiseTokens, List.foldl_cons, List.foldl_nil]
  rw [removeAll_eq_self (h "menus".data (by decide)),
    removeAll_eq_self (h "menu".data (by decide)),
    removeAll_eq_self (h "menues".data (by decide)),
    removeAll_eq_self (h "menus ".data (by decide)),
    removeAll_eq_self (h "menu ".data (by decide))]

theorem mem_noiseChain {s : List Char} {c : Char} (h : c ∈ noiseChain s) : c ∈ s := by
  simp only [noiseChain, noiseTokens, List.foldl_cons, List.foldl_nil] at h
  exact mem_removeAll (mem_removeAll (mem_removeAll (mem_removeAll (mem_removeAll h))))

theorem nv_data (x : String) (hx : x ≠ "") :
    (normalize_vendor_name (some x)).data = collapseL (noiseChain (lowerL (stripL x.data))) := by
  simp [normalize_vendor_name, hx]

/-- Strings that are already in the normalizer's canonical shape (an
image of `collapseL`, lower-case, free of the `menu` token) are fixed
points of `normalize_vendor_name`. -/
theorem nv_fixed_point (y : String) (hy : ∃ z, y.data = collapseL z) (hne : y ≠ "")
    (hlower : ∀ c ∈ y.data, lowerChar c = c)
    (hfree : containsSeq "menu".data y.data = false) :
    normalize_vendor_name (some y) = y := by
  obtain ⟨z, hz⟩ := hy
  have h1 : stripL y.data = y.data := by rw [hz]; exact stripL_collapseL z
  have h2 : lowerL y.data = y.data := lowerL_fixed hlower
  have h4 : collapseL y.data = y.data := by rw [hz]; exact collapseL_idem z
  apply String.ext
  rw [nv_data y hne, h1, h2, noiseChain_eq_self hfree, h4]

/-- Character strings built from whitespace-free noise tokens `menu`
and `menus` separated by spaces (any interleaving). -/
inductive NoiseStr : List Char → Prop where
  | nil : NoiseStr []
  | space {s} : NoiseStr s → NoiseStr (' ' :: s)
  | menu {s} : NoiseStr s → NoiseStr ('m' :: 'e' :: 'n' :: 'u' :: s)
  | menus {s} : NoiseStr s → NoiseStr ('m' :: 'e' :: 'n' :: 'u' :: 's' :: s)

/-- Character strings built from the token `menu` and spaces. -/
inductive MenuOnly : List Char → Prop where
  | nil : MenuOnly []
  | space {s} : MenuOnly s → MenuOnly (' ' :: s)
  | menu {s} : MenuOnly s → MenuOnly ('m' :: 'e' :: 'n' :: 'u' :: s)

theorem isPrefixOf_cons_ne {a b : Char} {as bs : List Char} (h : a ≠ b) :
    (a :: as).isPrefixOf (b :: bs) = false := by
  rw [Bool.eq_false_iff]
  intro hcon
  have hpre := List.isPrefixOf_iff_prefix.mp hcon
  rw [List.cons_prefix_cons] at hpre
  exact h hpre.1

theorem s_not_prefix_of_noise {rest : List Char} (h : NoiseStr rest) :
    (['s'] : List Char).isPrefixOf rest = false := by
  cases h with
  | nil => rfl
  | space _ => exact isPrefixOf_cons_ne (by decide)
  | menu _ => exact isPrefixOf_cons_ne (by decide)
  | menus _ => exact isPrefixOf_cons_ne (by decide)

theorem prefix_menus_of_noise_menu {rest : List Char} (h : NoiseStr rest) :
    ("menus".data).isPrefixOf ('m' :: 'e' :: 'n' :: 'u' :: rest) = false := by
  show (['m', 'e', 'n', 'u', 's'] : List Char).isPrefixOf ('m' :: 'e' :: 'n' :: 'u' :: rest) = false
  simp only [List.isPrefixOf, beq_self_eq_true, Bool.true_and]
  exact s_not_prefix_of_noise h

theorem removeAll_menu_head {s : List Char} :
    removeAll "menu".data ('m' :: 'e' :: 'n' :: 'u' :: s) = removeAll "menu".data s := by
  have hp : ("menu".data).isPrefixOf ('m' :: 'e' :: 'n' :: 'u' :: s) = true := by
    show (['m', 'e', 'n', 'u'] : List Char).isPrefixOf _ = true
    simp [List.isPrefixOf]
  rw [removeAll_skip hp]
  rfl

theorem removeAll_menus_head {s : List Char} :
    removeAll "menus".data ('m' :: 'e' :: 'n' :: 'u' :: 's' :: s) = removeAll "menus".data s := by
  have hp : ("menus".data).isPrefixOf ('m' :: 'e' :: 'n' :: 'u' :: 's' :: s) = true := by
    show (['m', 'e', 'n', 'u', 's'] : List Char).isPrefixOf _ = true
    simp [List.isPrefixOf]
  rw [removeAll_skip hp]
  rfl

theorem rm_menus_noise {s : List Char} (h : NoiseStr s) :
    MenuOnly (removeAll "menus".data s) := by
  induction h with
  | nil => exact MenuOnly.nil
  | @space t _ ih =>
    have hp : ("menus".data).isPrefixOf (' ' :: t) = false := by
      show (['m', 'e', 'n', 'u', 's'] : List Char).isPrefixOf _ = false
      exact isPrefixOf_cons_ne (by decide)
    rw [removeAll_cons_neg hp]
    exact MenuOnly.space ih
  | @menu rest hrest ih =>
    rw [removeAll_cons_neg (prefix_menus_of_noise_menu hrest)]
    have h2 : ("menus".data).isPrefixOf ('e' :: 'n' :: 'u' :: rest) = false := by
      show (['m', 'e', 'n', 'u', 's'] : List Char).isPrefixOf _ = false
      exact isPrefixOf_cons_ne (by decide)
    rw [removeAll_cons_neg h2]
    have h3 : ("menus".data).isPrefixOf ('n' :: 'u' :: rest) = false := by
      show (['m', 'e', 'n', 'u', 's'] : List Char).isPrefixOf _ = false
      exact isPrefixOf_cons_ne (by decide)
    rw [removeAll_cons_neg h3]
    have h4 : ("menus".data).isPrefixOf ('u' :: rest) = false := by
      show (['m', 'e', 'n', 'u', 's'] : List Char).isPrefixOf _ = false
      exact isPrefixOf_cons_ne (by decide)
    rw [removeAll_cons_neg h4]
    exact MenuOnly.menu ih
  | menus _ ih =>
    rw [removeAll_menus_head]
    exact ih

theorem rm_menu_spaces {s : List Char} (h : MenuOnly s) :
    ∀ c ∈ removeAll "menu".data s, pyWs c = true := by
  induction h with
  | nil =>
    intro c hc
    rw [show removeAll "menu".data ([] : List Char) = [] from rfl] at hc
    simp at hc
  | @space t _ ih =>
    intro c hc
    have hp : ("menu".data).isPrefixOf (' ' :: t) = false := by
      show (['m', 'e', 'n', 'u'] : List Char).isPrefixOf _ = false
      exact isPrefixOf_cons_ne (by decide)
    rw [removeAll_cons_neg hp] at hc
    rcases List.mem_cons.mp hc with rfl | hc
    · decide
    · exact ih c hc
  | menu _ ih =>
    intro c hc
    rw [removeAll_menu_head] at hc
    exact ih c hc

theorem splitAux_all_nil :
    ∀ (s : List Char), (∀ c ∈ s, pyWs c = true) → ∀ g ∈ splitAux s, g = [] := by
  intro s
  induction s with
  | nil => intro _ g hg; simp [splitAux] at hg
  | cons b bs ih =>
    intro h g hg
    have hb : pyWs b = true := h b (List.mem_cons_self _ _)
    rw [splitAux_cons_ws hb] at hg
    rcases List.mem_cons.mp hg with rfl | hg
    · rfl
    · exact ih (fun c hc => h c (List.mem_cons_of_mem _ hc)) g hg

theorem collapseL_spaces {s : List Char} (h : ∀ c ∈ s, pyWs c = true) : collapseL s = [] := by
  have hfil : splitWs s = [] := by
    apply List.filter_eq_nil_iff.mpr
    intro g hg
    rw [splitAux_all_nil s h g hg]
    simp
  show joinWords (splitWs s) = []
  rw [hfil]
  rfl

/-- Non-empty raw names whose stripped, lower-cased form is a
space-separated interleaving of the tokens `menu` and `menus`
normalize to the empty string. -/
theorem nv_noise_empty (raw : String) (hraw : raw ≠ "")
    (h : NoiseStr (lowerL (stripL raw.data))) :
    normalize_vendor_name (some raw) = "" := by
  apply String.ext
  rw [nv_data raw hraw]
  have h1 : MenuOnly (removeAll "menus".data (lowerL (stripL raw.data))) := rm_menus_noise h
  have h2 : ∀ c ∈ removeAll "menu".data (removeAll "menus".data (lowerL (stripL raw.data))),
      pyWs c = true := rm_menu_spaces h1
  have h3 : ∀ tok : List Char, 'm' ∈ tok →
      ∀ s' : List Char, (∀ c ∈ s', pyWs c = true) → containsSeq tok s' = false := by
    intro tok hm s' hs
    by_cases hc : containsSeq tok s' = true
    · exact absurd (hs 'm' (containsSeq_mem hm hc)) (by decide)
    · simpa using hc
  simp only [noiseChain, noiseTokens, List.foldl_cons, List.foldl_nil]
  rw [removeAll_eq_self (h3 "menues".data (by decide) _ h2),
    removeAll_eq_self (h3 "menus ".data (by decide) _ h2),
    removeAll_eq_self (h3 "menu ".data (by decide) _ h2),
    collapseL_spaces h2]

/-! ## Helper characterizations: metrics record and nutrition extractor -/

theorem lookupJ_cons (k : String) (p : String × JVal) (d : List (String × JVal)) :
    lookupJ k (p :: d) = if p.1 == k then some p.2 else lookupJ k d := by
  simp only [lookupJ, List.find?_cons]
  by_cases hp : (p.1 == k) = true
  · simp [hp]
  · simp [hp]

theorem lookupJ_append (k : String) (d1 d2 : List (String × JVal)) :
    lookupJ k (d1 ++ d2) =
      match lookupJ k d1 with | some v => some v | none => lookupJ k d2 := by
  induction d1 with
  | nil => simp [lookupJ]
  | cons p d1 ih =>
    rw [List.cons_append, lookupJ_cons, lookupJ_cons]
    by_cases hp : (p.1 == k) = true
    · simp [hp]
    · simp only [hp, Bool.false_eq_true, if_false]
      exact ih

theorem lookupJ_map_replace {k k' : String} (h : k ≠ k') (v : JVal)
    (d : List (String × JVal)) :
    lookupJ k (d.map (fun p => if p.1 == k' then (k', v) else p)) = lookupJ k d := by
  induction d with
  | nil => rfl
  | cons p d ih =>
    rw [List.map_cons, lookupJ_cons, lookupJ_cons]
    by_cases hp : (p.1 == k') = true
    · rw [if_pos hp]
      have h1 : ((k', v).1 == k) = false := beq_eq_false_iff_ne.mpr (Ne.symm h)
      have h2 : (p.1 == k) = false :=
        beq_eq_false_iff_ne.mpr (fun hk => (Ne.symm h) ((eq_of_beq hp).symm.trans hk))
      rw [h1, h2]
      simp only [Bool.false_eq_true, if_false]
      exact ih
    · rw [if_neg hp]
      by_cases hk : (p.1 == k) = true
      · simp [hk]
      · simp only [hk, Bool.false_eq_true, if_false]
        exact ih

theorem lookupJ_dictUpdate_ne {k k' : String} (h : k ≠ k') (d : List (String × JVal))
    (v : JVal) :
    lookupJ k (dictUpdate d k' v) = lookupJ k d := by
  unfold dictUpdate
  by_cases ha : (d.any fun p => p.1 == k') = true
  · rw [if_pos ha]
    exact lookupJ_map_replace h v d
  · rw [if_neg ha, lookupJ_append]
    have hnone : lookupJ k [(k', v)] = none := by
      rw [lookupJ_cons]
      have h1 : ((k', v).1 == k) = false := beq_eq_false_iff_ne.mpr (Ne.symm h)
      simp [h1, lookupJ]
    cases hfound : lookupJ k d with
    | some w => rfl
    | none => simp [hnone]

/-- Characterization target for `presentVals`: the value of the LAST
alias present in the dict. -/
def lastPresent (nd : List (String × JVal)) (keys : List String) : Option JVal :=
  (keys.reverse.find? (fun k => (lookupJ k nd).isSome)).bind (fun k => lookupJ k nd)

/-- Characterization target for `topFill`: the value of the FIRST alias
present in the record. -/
def firstPresent (record : List (String × JVal)) (keys : List String) : Option JVal :=
  (keys.find? (fun k => (lookupJ k record).isSome)).bind (fun k => lookupJ k record)

theorem presentVals_eq_lastPresent (nd : List (String × JVal)) (keys : List String) :
    presentVals nd keys = lastPresent nd keys := by
  induction keys using List.reverseRecOn with
  | nil => rfl
  | append_singleton keys k ih =>
    unfold presentVals at ih ⊢
    rw [List.foldl_append, List.foldl_cons, List.foldl_nil, ih]
    unfold lastPresent
    rw [List.reverse_append, List.reverse_singleton, List.singleton_append, List.find?_cons]
    cases hk : lookupJ k nd with
    | some v => simp [hk]
    | none => simp [hk]

theorem topFill_some (record : List (String × JVal)) (keys : List String) (c : JVal) :
    topFill record keys (some c) = some c := by
  induction keys with
  | nil => rfl
  | cons k ks ih =>
    unfold topFill at ih ⊢
    rw [List.foldl_cons]
    simpa using ih

theorem topFill_none_eq_firstPresent (record : List (String × JVal)) (keys : List String) :
    topFill record keys none = firstPresent record keys := by
  induction keys with
  | nil => rfl
  | cons k ks ih =>
    unfold topFill firstPresent
    rw [List.foldl_cons, List.find?_cons]
    cases hk : lookupJ k record with
    | some v =>
      simp only [Option.isSome_none, Bool.false_eq_true, if_false, hk, Option.isSome_some,
        if_true]
      have := topFill_some record ks v
      unfold topFill at this
      simp [this, hk]
    | none =>
      simp only [Option.isSome_none, Bool.false_eq_true, if_false, hk]
      unfold firstPresent at ih
      simpa [hk] using ih

theorem topFill_eq_orElse (record : List (String × JVal)) (keys : List String)
    (cur : Option JVal) :
    topFill record keys cur = cur.orElse (fun _ => firstPresent record keys) := by
  cases cur with
  | some c => simp [topFill_some]
  | none => simp [topFill_none_eq_firstPresent]

/-! ## Additional concrete data for witnesses and counterexamples -/

def vect0 : String → List ℚ := fun _ => [1]

def model0 : List ℚ → ℚ := fun _ => 42

def dbNull : List DbEntry := [{ name := "dal", calories := none }]

def itemNull : Item := { vendor_id := "v0", vendor_name := "nowhere" }

def metricsOld : List (String × JVal) := [("local_fuzzy_impute", JVal.obj [])]

def rec0 : List (String × JVal) :=
  [("nutrition", JVal.obj [("calories", JVal.num 100), ("cal", JVal.num 200)])]

def storeNoModel : Store :=
  { itemsParquet := some [itemDal], nutDb := dbDal, vectFile := none, modelFile := none }

/-! ## Claim theorems -/

/-- C9: when the persisted vectorizer or regressor artifact is absent,
the model-regression imputation stage is a no-op: it returns the store
unchanged — no item row modified, no enriched output written, no
metrics touched (the Python function prints a diagnostic and returns). -/
theorem model_stage_noop_when_artifacts_missing (s : Store)
    (h : s.vectFile = none ∨ s.modelFile = none) : modelMain s = s := by
  rcases hip : s.itemsParquet with _ | df
  · unfold modelMain
    rw [hip]
  · rcases hv : s.vectFile with _ | v
    · rcases hm : s.modelFile with _ | m
      · unfold modelMain; rw [hip, hv, hm]
      · unfold modelMain; rw [hip, hv, hm]
    · rcases hm : s.modelFile with _ | m
      · unfold modelMain; rw [hip, hv, hm]
      · exfalso
        rcases h with h | h
        · rw [hv] at h; exact Option.noConfusion h
        · rw [hm] at h; exact Option.noConfusion h

/-- Witness for C9 at a concrete store with both artifacts missing. -/
theorem model_stage_noop_when_artifacts_missing_witness :
    (storeNoModel.vectFile = none ∨ storeNoModel.modelFile = none) ∧
    modelMain storeNoModel = storeNoModel :=
  ⟨Or.inl rfl, model_stage_noop_when_artifacts_missing storeNoModel (Or.inl rfl)⟩

/-- C5: price coercion maps null, the empty string and unparseable
strings to null (never 0), and the per-group `price_avg` is computed
over the non-null `price_cents` only: a null-priced row does not change
it, and a group with one null and two known prices averages the two
known prices. -/
theorem price_null_coercion_and_avg :
    coerce_price (JVal.str "") = none ∧
    coerce_price JVal.null = none ∧
    (∀ s : String, parseFloat s = none → coerce_price (JVal.str s) = none) ∧
    (∀ (g : List Item) (r : Item), r.price_cents = none →
        (vendorAggOfGroup (r :: g)).price_avg = (vendorAggOfGroup g).price_avg) ∧
    (∀ (r0 r1 r2 : Item) (a b : ℤ), r0.price_cents = none → r1.price_cents = some a →
        r2.price_cents = some b →
        (vendorAggOfGroup [r0, r1, r2]).price_avg = some (((a : ℚ) + (b : ℚ)) / 2)) := by
  refine ⟨rfl, rfl, ?_, ?_, ?_⟩
  · intro s h
    by_cases hs : s = ""
    · simp [coerce_price, hs]
    · simp [coerce_price, hs, h]
  · intro g r h
    have hp : pricesOf (r :: g) = pricesOf g := by simp [pricesOf, h]
    simp [vendorAggOfGroup, hp]
  · intro r0 r1 r2 a b h0 h1 h2
    have hp : pricesOf [r0, r1, r2] = [(a : ℚ), (b : ℚ)] := by
      simp [pricesOf, h0, h1, h2]
    simp [vendorAggOfGroup, hp, meanQ]

/-- Witness for C5 at concrete inputs. -/
theorem price_null_coercion_and_avg_witness :
    (parseFloat "abc" = none ∧ coerce_price (JVal.str "abc") = none) ∧
    (itemNull.price_cents = none ∧ itemDal.price_cents = some 150 ∧
      (vendorAggOfGroup [itemNull, itemDal, itemDal]).price_avg =
        some (((150 : ℚ) + (150 : ℚ)) / 2)) :=
  ⟨⟨by decide, price_null_coercion_and_avg.2.2.1 "abc" (by decide)⟩,
   ⟨rfl, rfl, price_null_coercion_and_avg.2.2.2.2 itemNull itemDal itemDal 150 150 rfl rfl rfl⟩⟩

theorem countP_partition4 {α : Type} (f : α → String) (l : List α)
    (hf : ∀ a ∈ l, f a = "cheap" ∨ f a = "medium" ∨ f a = "expensive" ∨ f a = "unknown") :
    l.countP (fun a => f a == "cheap") + l.countP (fun a => f a == "medium") +
    l.countP (fun a => f a == "expensive") + l.countP (fun a => f a == "unknown") =
      l.length := by
  induction l with
  | nil => rfl
  | cons a l ih =>
    simp only [List.countP_cons, List.length_cons]
    have ih2 := ih (fun b hb => hf b (List.mem_cons_of_mem _ hb))
    rcases hf a (List.mem_cons_self _ _) with h | h | h | h <;> simp [h] <;> omega

theorem bucket_total (r : Item) :
    price_bucket r.price_cents = "cheap" ∨ price_bucket r.price_cents = "medium" ∨
    price_bucket r.price_cents = "expensive" ∨ price_bucket r.price_cents = "unknown" := by
  rcases hp : r.price_cents with _ | p
  · right; right; right; rfl
  · by_cases h1 : p < 100
    · left; simp [price_bucket, h1]
    · by_cases h2 : p < 300
      · right; left; simp [price_bucket, h1, h2]
      · right; right; left; simp [price_bucket, h1, h2]

theorem bucket_partition (g : List Item) :
    g.countP (fun r => price_bucket r.price_cents == "cheap") +
    g.countP (fun r => price_bucket r.price_cents == "medium") +
    g.countP (fun r => price_bucket r.price_cents == "expensive") +
    g.countP (fun r => price_bucket r.price_cents == "unknown") = g.length :=
  countP_partition4 (fun r => price_bucket r.price_cents) g (fun a _ => bucket_total a)

/-- C7: price buckets are cheap below 100, medium from 100 to 299,
expensive from 300, null maps to `unknown`; the percentage fields
divide the bucket counts by the FULL group size (null-priced rows count
in the denominator and in no priced bucket); a single-item group priced
150 yields `cheap_pct = 0` and `medium_pct = 100`. -/
theorem price_bucket_percentages :
    (∀ p : ℤ, (price_bucket (some p) = "cheap" ↔ p < 100) ∧
        (price_bucket (some p) = "medium" ↔ 100 ≤ p ∧ p < 300) ∧
        (price_bucket (some p) = "expensive" ↔ 300 ≤ p)) ∧
    price_bucket none = "unknown" ∧
    (∀ r : Item, r.price_cents = none → price_bucket r.price_cents = "unknown") ∧
    (∀ g : List Item, g ≠ [] →
        ((vendorAggOfGroup g).cheap_pct =
            round2 (100 * (g.countP (fun r => price_bucket r.price_cents == "cheap")) /
              g.length) ∧
         (vendorAggOfGroup g).medium_pct =
            round2 (100 * (g.countP (fun r => price_bucket r.price_cents == "medium")) /
              g.length) ∧
         (vendorAggOfGroup g).expensive_pct =
            round2 (100 * (g.countP (fun r => price_bucket r.price_cents == "expensive")) /
              g.length) ∧
         g.countP (fun r => price_bucket r.price_cents == "cheap") +
           g.countP (fun r => price_bucket r.price_cents == "medium") +
           g.countP (fun r => price_bucket r.price_cents == "expensive") +
           g.countP (fun r => price_bucket r.price_cents == "unknown") = g.length)) ∧
    (vendorAggOfGroup [itemDal]).cheap_pct = 0 ∧
    (vendorAggOfGroup [itemDal]).medium_pct = 100 := by
  refine ⟨?_, rfl, ?_, ?_, by decide, by decide⟩
  · intro p
    by_cases h1 : p < 100 <;> by_cases h2 : p < 300 <;>
      simp [price_bucket, h1, h2] <;> omega
  · intro r h
    rw [h]
    rfl
  · intro g hg
    have hn : g.length ≠ 0 := by simpa [List.length_eq_zero] using hg
    refine ⟨?_, ?_, ?_, bucket_partition g⟩ <;> simp [vendorAggOfGroup, hn]

/-- Witness for C7 at the singleton group priced 150. -/
theorem price_bucket_percentages_witness :
    ([itemDal] ≠ ([] : List Item)) ∧
    (vendorAggOfGroup [itemDal]).cheap_pct =
      round2 (100 * ([itemDal].countP (fun r => price_bucket r.price_cents == "cheap")) /
        [itemDal].length) :=
  ⟨by decide, (price_bucket_percentages.2.2.2.1 [itemDal] (by decide)).1⟩

/-- C8: every group statistic is computed over the group's non-null
inputs only (an all-null row changes none of them); with no non-null
input the mean/median/min/max/stddev-family fields are null while
`sum_protein` is 0; and `missing_nutrition_flag` holds exactly when
every item of the group has null calories. -/
theorem vendor_group_stats_null_semantics :
    (∀ g : List Item,
        ((vendorAggOfGroup g).missing_nutrition_flag = true ↔ ∀ r ∈ g, r.calories = none)) ∧
    (∀ g : List Item, calsOf g = [] →
        (vendorAggOfGroup g).avg_calories = none ∧
        (vendorAggOfGroup g).median_calories = none ∧
        (vendorAggOfGroup g).min_calories = none ∧
        (vendorAggOfGroup g).max_calories = none) ∧
    (∀ g : List Item, protsOf g = [] →
        (vendorAggOfGroup g).sum_protein = 0 ∧ (vendorAggOfGroup g).avg_protein = none) ∧
    (∀ g : List Item, pricesOf g = [] →
        (vendorAggOfGroup g).price_avg = none ∧ (vendorAggOfGroup g).price_median = none ∧
        (vendorAggOfGroup g).price_stddev = none) ∧
    (∀ (g : List Item) (r : Item), r.calories = none → r.protein = none →
        r.price_cents = none →
        ((vendorAggOfGroup (r :: g)).avg_calories = (vendorAggOfGroup g).avg_calories ∧
         (vendorAggOfGroup (r :: g)).median_calories = (vendorAggOfGroup g).median_calories ∧
         (vendorAggOfGroup (r :: g)).min_calories = (vendorAggOfGroup g).min_calories ∧
         (vendorAggOfGroup (r :: g)).max_calories = (vendorAggOfGroup g).max_calories ∧
         (vendorAggOfGroup (r :: g)).sum_protein = (vendorAggOfGroup g).sum_protein ∧
         (vendorAggOfGroup (r :: g)).avg_protein = (vendorAggOfGroup g).avg_protein ∧
         (vendorAggOfGroup (r :: g)).price_avg = (vendorAggOfGroup g).price_avg ∧
         (vendorAggOfGroup (r :: g)).price_median = (vendorAggOfGroup g).price_median ∧
         (vendorAggOfGroup (r :: g)).price_stddev = (vendorAggOfGroup g).price_stddev)) := by
  refine ⟨?_, ?_, ?_, ?_, ?_⟩
  · intro g
    simp [vendorAggOfGroup, List.all_eq_true, Option.isNone_iff_eq_none]
  · intro g h
    simp [vendorAggOfGroup, h]
  · intro g h
    simp [vendorAggOfGroup, h]
  · intro g h
    simp [vendorAggOfGroup, h]
  · intro g r h1 h2 h3
    have hc : calsOf (r :: g) = calsOf g := by simp [calsOf, h1]
    have hp : protsOf (r :: g) = protsOf g := by simp [protsOf, h2]
    have hq : pricesOf (r :: g) = pricesOf g := by simp [pricesOf, h3]
    refine ⟨?_, ?_, ?_, ?_, ?_, ?_, ?_, ?_, ?_⟩ <;>
      simp [vendorAggOfGroup, hc, hp, hq]

/-- Witness for C8 at a concrete all-null group. -/
theorem vendor_group_stats_null_semantics_witness :
    (calsOf [itemNull] = [] ∧ (vendorAggOfGroup [itemNull]).avg_calories = none) ∧
    (itemNull.calories = none ∧
      (vendorAggOfGroup (itemNull :: [itemDal])).price_avg =
        (vendorAggOfGroup [itemDal]).price_avg) :=
  ⟨⟨by decide, (vendor_group_stats_null_semantics.2.1 [itemNull] (by decide)).1⟩,
   ⟨rfl, (vendor_group_stats_null_semantics.2.2.2.2 [itemDal] itemNull rfl rfl
      rfl).2.2.2.2.2.2.1⟩⟩

/-- C4 counterexample: the advanced-ETL stage's metrics write replaces
the whole record — a pre-existing `local_fuzzy_impute` section (not the
stage's own) is gone after the run, refuting "all sections other than
the stage's own section are unchanged" for every stage. -/
theorem etl_metrics_overwrite_counterexample :
    (lookupJ "local_fuzzy_impute" metricsOld).isSome = true ∧
    lookupJ "local_fuzzy_impute" (etlWriteMetrics metricsOld [itemDal] "t") = none := by
  exact ⟨rfl, rfl⟩

/-- C4 (amended): the fuzzy-impute, model-impute and text-regressor
stages merge only their own named sub-object (`local_fuzzy_impute`,
`model_impute`, `text_regressor`) into the metrics record, leaving
every other key unchanged; the advanced-ETL stage instead writes a
fresh flat record that does not depend on the pre-existing one. -/
theorem metrics_merge_amended :
    (∀ (score : String → String → ℚ) (va : Option String) (s : Store) (k : String),
        k ≠ "local_fuzzy_impute" →
        lookupJ k ((fuzzyMain score va s).metricsJson.getD []) =
          lookupJ k (s.metricsJson.getD [])) ∧
    (∀ (s : Store) (k : String), k ≠ "model_impute" →
        lookupJ k ((modelMain s).metricsJson.getD []) =
          lookupJ k (s.metricsJson.getD [])) ∧
    (∀ (old : List (String × JVal)) (stats : JVal) (k : String), k ≠ "text_regressor" →
        lookupJ k (trainMetricsUpdate old stats) = lookupJ k old) ∧
    (∀ (old old2 : List (String × JVal)) (items : List Item) (ts : String),
        etlWriteMetrics old items ts = etlWriteMetrics old2 items ts) := by
  refine ⟨?_, ?_, ?_, fun _ _ _ _ => rfl⟩
  · intro score va s k hk
    rcases hip : s.itemsParquet with _ | df
    · unfold fuzzyMain
      rw [hip]
    · simp only [fuzzyMain, hip]
      by_cases hdb : s.nutDb.isEmpty
      · rw [if_pos hdb]
      · rw [if_neg hdb]
        exact lookupJ_dictUpdate_ne hk _ _
  · intro s k hk
    rcases hip : s.itemsParquet with _ | df
    · unfold modelMain
      rw [hip]
    · rcases hv : s.vectFile with _ | v
      · unfold modelMain
        rw [hip, hv]
      · rcases hm : s.modelFile with _ | m
        · unfold modelMain
          rw [hip, hv, hm]
        · simp only [modelMain, hip, hv, hm]
          exact lookupJ_dictUpdate_ne hk _ _
  · intro old stats k hk
    exact lookupJ_dictUpdate_ne hk _ _

/-- Witness for C4 (amended) at a concrete store and keys. -/
theorem metrics_merge_amended_witness :
    (("pct_with_calories" : String) ≠ "model_impute" ∧
      lookupJ "pct_with_calories" ((modelMain store0).metricsJson.getD []) =
        lookupJ "pct_with_calories" (store0.metricsJson.getD [])) ∧
    (("total_items" : String) ≠ "text_regressor" ∧
      lookupJ "total_items" (trainMetricsUpdate metricsOld (JVal.obj [])) =
        lookupJ "total_items" metricsOld) :=
  ⟨⟨by decide, metrics_merge_amended.2.1 store0 "pct_with_calories" (by decide)⟩,
   ⟨by decide, metrics_merge_amended.2.2.1 metricsOld (JVal.obj []) "total_items" (by decide)⟩⟩

/-- C6 counterexample: on a record whose nested nutrition dict carries
both `calories` and `cal`, the spec's "first non-null wins" reading
yields 100 while the code's last-present-alias loop yields 200. -/
theorem extract_nutrition_first_nonnull_counterexample :
    specCalories rec0 = some 100 ∧ (extract_nutrition rec0).calories = some 200 ∧
    specCalories rec0 ≠ (extract_nutrition rec0).calories := by
  refine ⟨rfl, rfl, by decide⟩

/-- C6 (amended): the extractor is total; within the nested nutrition
dict the LAST present alias wins (even when its value is null), a
present nested alias suppresses the top-level fallback entirely, the
top-level fallback takes the FIRST present alias, `fat`/`carbs` have no
top-level fallback at all, and located values are float-coerced with
null on failure. -/
theorem extract_nutrition_characterization :
    (∀ (nd : List (String × JVal)) (keys : List String),
        presentVals nd keys = lastPresent nd keys) ∧
    (∀ (record : List (String × JVal)) (keys : List String) (cur : Option JVal),
        topFill record keys cur = cur.orElse (fun _ => firstPresent record keys)) ∧
    (∀ (record : List (String × JVal)) (flds : List (String × JVal)),
        nutritionObj record = some flds →
        rawField record calAliases calAliases =
          (lastPresent flds calAliases).orElse (fun _ => firstPresent record calAliases)) ∧
    (∀ record : List (String × JVal), nutritionObj record = none →
        (extract_nutrition record).fat = none ∧ (extract_nutrition record).carbs = none ∧
        rawField record calAliases calAliases = firstPresent record calAliases) ∧
    coerceMacro JVal.null = none ∧
    coerceMacro (JVal.str "") = none ∧
    (∀ q : ℚ, coerceMacro (JVal.num q) = some q) ∧
    (∀ s : String, parseFloat s = none → coerceMacro (JVal.str s) = none) ∧
    (∀ record : List (String × JVal),
        (extract_nutrition record).calories =
          (rawField record calAliases calAliases).bind coerceMacro) := by
  refine ⟨presentVals_eq_lastPresent, topFill_eq_orElse, ?_, ?_, rfl, rfl, fun q => rfl, ?_,
    fun record => rfl⟩
  · intro record flds h
    simp only [rawField, h]
    rw [presentVals_eq_lastPresent, topFill_eq_orElse]
  · intro record h
    refine ⟨?_, ?_, ?_⟩
    · show (rawField record fatAliases []).bind coerceMacro = none
      unfold rawField
      rw [h]
      rfl
    · show (rawField record carbAliases []).bind coerceMacro = none
      unfold rawField
      rw [h]
      rfl
    · unfold rawField
      rw [h]
      exact topFill_none_eq_firstPresent record calAliases
  · intro s h
    by_cases hs : s = ""
    · simp [coerceMacro, hs]
    · simp [coerceMacro, hs, h]

/-- Witness for C6 (amended) at concrete records. -/
theorem extract_nutrition_characterization_witness :
    (nutritionObj rec0 = some [("calories", JVal.num 100), ("cal", JVal.num 200)] ∧
      rawField rec0 calAliases calAliases =
        (lastPresent [("calories", JVal.num 100), ("cal", JVal.num 200)] calAliases).orElse
          (fun _ => firstPresent rec0 calAliases)) ∧
    (parseFloat "n/a" = none ∧ coerceMacro (JVal.str "n/a") = none) :=
  ⟨⟨rfl, extract_nutrition_characterization.2.2.1 rec0
      [("calories", JVal.num 100), ("cal", JVal.num 200)] rfl⟩,
   ⟨by decide, extract_nutrition_characterization.2.2.2.2.2.2.2.1 "n/a" (by decide)⟩⟩

def fuzzyImputedDal : Item :=
  { itemDal with
      calories := some 100, calories_imputed := some true
      calories_confidence := some 0.9, calories_source := some "local_indian_nutrition"
      local_match_score := some 100, local_match_name := some "dal" }

def modelImputedDal : Item :=
  { itemDal with
      model_pred_calories := some 42, calories := some 42
      calories_imputed_model := some true, calories_source := some "model_regressor"
      calories_confidence := some 0.7 }

/-- C1 counterexample: in a concrete run of fuzzy stage then model
stage, the item imputed by the fuzzy matcher (calories 100,
`calories_imputed = true`, source `local_indian_nutrition` in the fuzzy
output table) is nevertheless assigned model calories in the model
stage's output — the model stage masks on the RAW `items.parquet`, not
on the fuzzy stage's result, so it does not operate "only on rows still
null after the fuzzy stage". -/
theorem model_stage_reimputes_fuzzy_imputed_row :
    (fuzzyMain exactScorer none store0).outLocalParquet = some [fuzzyImputedDal] ∧
    fuzzyImputedDal.calories = some 100 ∧
    fuzzyImputedDal.calories_imputed = some true ∧
    fuzzyImputedDal.calories_source = some "local_indian_nutrition" ∧
    (modelMain (fuzzyMain exactScorer none store0)).outModelParquet = some [modelImputedDal] ∧
    modelImputedDal.calories_source = some "model_regressor" ∧
    modelImputedDal.calories = some 42 ∧
    modelImputedDal.calories ≠ fuzzyImputedDal.calories := by decide

/-- C1 (amended): the model stage never modifies the fuzzy stage's
output tables (each stage writes its own files), and it assigns
calories, `calories_source` and `calories_confidence` exactly to the
rows whose calories are null in the RAW canonical table
`data/items.parquet` that it reads — including rows the fuzzy stage
already imputed in its separate output. -/
theorem model_stage_masks_on_raw_items (s : Store) (df : List Item)
    (v : String → List ℚ) (m : List ℚ → ℚ)
    (hdf : s.itemsParquet = some df) (hv : s.vectFile = some v) (hm : s.modelFile = some m) :
    (modelMain s).outLocalParquet = s.outLocalParquet ∧
    (modelMain s).outLocalCsv = s.outLocalCsv ∧
    (modelMain s).itemsParquet = s.itemsParquet ∧
    (modelMain s).outModelParquet = some (df.map (modelUpdateRow v m)) ∧
    (modelMain s).outModelCsv = some (df.map (modelUpdateRow v m)) ∧
    (∀ r : Item, r.calories.isSome = true → modelUpdateRow v m r = r) ∧
    (∀ r : Item, r.calories = none →
        (modelUpdateRow v m r).calories_source = some "model_regressor" ∧
        (modelUpdateRow v m r).calories = some (m (v (buildText r))) ∧
        (modelUpdateRow v m r).calories_confidence = some 0.7) := by
  refine ⟨?_, ?_, ?_, ?_, ?_, ?_, ?_⟩
  · simp only [modelMain, hdf, hv, hm]
  · simp only [modelMain, hdf, hv, hm]
  · simp only [modelMain, hdf, hv, hm]
  · simp only [modelMain, hdf, hv, hm]
  · simp only [modelMain, hdf, hv, hm]
  · intro r h
    rcases hc : r.calories with _ | c
    · rw [hc] at h; simp at h
    · simp [modelUpdateRow, hc]
  · intro r h
    simp [modelUpdateRow, h]

/-- Witness for C1 (amended) on the concrete two-stage run. -/
theorem model_stage_masks_on_raw_items_witness :
    ((fuzzyMain exactScorer none store0).itemsParquet = some [itemDal] ∧
     (fuzzyMain exactScorer none store0).vectFile = some vect0 ∧
     (fuzzyMain exactScorer none store0).modelFile = some model0) ∧
    (modelMain (fuzzyMain exactScorer none store0)).outLocalParquet =
      (fuzzyMain exactScorer none store0).outLocalParquet :=
  ⟨⟨rfl, rfl, rfl⟩,
   (model_stage_masks_on_raw_items (fuzzyMain exactScorer none store0) [itemDal] vect0 model0
      rfl rfl rfl).1⟩

/-- C3 counterexample: a best match at score 100 (above the 75
threshold) whose reference entry has null calories is NOT accepted —
the row stays unchanged and `calories_imputed` is never set, so
"accepted if and only if score >= 75" fails. -/
theorem fuzzy_accept_iff_counterexample :
    itemDal.calories = none ∧
    vendorPass none itemDal = true ∧
    rowTitle itemDal = "dal" ∧
    bestMatch exactScorer (rowTitle itemDal) (dbNull.map (fun d => d.name)) =
      some ("dal", 100) ∧
    MED_THRESH ≤ (100 : ℚ) ∧
    imputeRow exactScorer dbNull none itemDal = itemDal ∧
    (imputeRow exactScorer dbNull none itemDal).calories_imputed ≠ some true := by decide

/-- C3 (amended): for a row processed by the fuzzy matcher (null
calories, passing the vendor filter, non-empty normalized title), the
best match is accepted iff its score is at least 75, its matched name
is non-empty (Python truthiness), AND the first reference entry bearing
that name has non-null calories; acceptance assigns that entry's
calories, `calories_imputed = true`, source
`local_indian_nutrition`, confidence 0.9 when score >= 90 else 0.6,
and the match score and name; in every other case (including rows not
processed) the row is unchanged. -/
theorem fuzzy_accept_characterization
    (score : String → String → ℚ) (db : List DbEntry) (vendors : Option String) (r : Item) :
    (r.calories.isSome = true → imputeRow score db vendors r = r) ∧
    (vendorPass vendors r = false → imputeRow score db vendors r = r) ∧
    (rowTitle r = "" → imputeRow score db vendors r = r) ∧
    (∀ (mn : String) (sc : ℚ), r.calories = none → vendorPass vendors r = true →
      rowTitle r ≠ "" →
      bestMatch score (rowTitle r) (db.map (fun d => d.name)) = some (mn, sc) →
      ((∀ c : ℚ, mn ≠ "" → MED_THRESH ≤ sc → findCal db mn = some c →
          imputeRow score db vendors r =
            { r with
                calories := some c, calories_imputed := some true,
                calories_confidence := some (if HIGH_THRESH ≤ sc then 0.9 else 0.6),
                calories_source := some "local_indian_nutrition",
                local_match_score := some sc, local_match_name := some mn }) ∧
       (sc < MED_THRESH → imputeRow score db vendors r = r) ∧
       (mn = "" → imputeRow score db vendors r = r) ∧
       (findCal db mn = none → imputeRow score db vendors r = r))) := by
  refine ⟨?_, ?_, ?_, ?_⟩
  · intro h
    simp [imputeRow, fuzzyDecision, h]
  · intro h
    by_cases hcal : r.calories.isSome = true
    · simp [imputeRow, fuzzyDecision, hcal]
    · simp [imputeRow, fuzzyDecision, hcal, h]
  · intro h
    by_cases hcal : r.calories.isSome = true
    · simp [imputeRow, fuzzyDecision, hcal]
    · by_cases hpass : vendorPass vendors r = true
      · simp [imputeRow, fuzzyDecision, hcal, hpass, h]
      · simp [imputeRow, fuzzyDecision, hcal, hpass]
  · intro mn sc hnull hpass htitle hbm
    have hcal : r.calories.isSome = false := by rw [hnull]; rfl
    have hD : fuzzyDecision score db vendors r =
        (match (if mn ≠ "" ∧ MED_THRESH ≤ sc then findCal db mn else none) with
          | some c => if MED_THRESH ≤ sc then some (mn, sc, c) else none
          | none => none) := by
      simp [fuzzyDecision, hcal, hpass, htitle, hbm]
    refine ⟨?_, ?_, ?_, ?_⟩
    · intro c hmn hth hfind
      simp [imputeRow, hD, hmn, hth, hfind]
    · intro h
      have hth : ¬ MED_THRESH ≤ sc := not_le.mpr h
      simp [imputeRow, hD, hth]
    · intro h
      simp [imputeRow, hD, h]
    · intro h
      simp [imputeRow, hD, h]

/-- Witness for C3 (amended): concrete accepted match. -/
theorem fuzzy_accept_characterization_witness :
    (itemDal.calories = none ∧ vendorPass none itemDal = true ∧ rowTitle itemDal ≠ "" ∧
      bestMatch exactScorer (rowTitle itemDal) (dbDal.map (fun d => d.name)) =
        some ("dal", 100) ∧
      ("dal" : String) ≠ "" ∧ MED_THRESH ≤ (100 : ℚ) ∧ findCal dbDal "dal" = some 100) ∧
    imputeRow exactScorer dbDal none itemDal =
      { itemDal with
          calories := some 100, calories_imputed := some true,
          calories_confidence := some (if HIGH_THRESH ≤ (100 : ℚ) then 0.9 else 0.6),
          calories_source := some "local_indian_nutrition",
          local_match_score := some 100, local_match_name := some "dal" } :=
  ⟨⟨rfl, rfl, by decide, by decide, by decide, by decide, by decide⟩,
   ((fuzzy_accept_characterization exactScorer dbDal none itemDal).2.2.2 "dal" 100 rfl rfl
      (by decide) (by decide)).1 100 (by decide) (by decide) (by decide)⟩

/-- C2 counterexample: normalization is not idempotent — the raw name
`Menu` normalizes to the empty string, and the empty string normalizes
to `unknown`. -/
theorem normalize_idem_counterexample :
    normalize_vendor_name (some (normalize_vendor_name (some "Menu"))) ≠
      normalize_vendor_name (some "Menu") := by decide

/-- C2 (amended): normalization is idempotent on every string whose
normalization is non-empty and free of the substring `menu` (token
removal can reintroduce the substring, and an empty normalization
re-enters the null/empty guard that yields `unknown`). -/
theorem normalize_idem_restricted (x : String)
    (hne : normalize_vendor_name (some x) ≠ "")
    (hfree : containsSeq "menu".data (normalize_vendor_name (some x)).data = false) :
    normalize_vendor_name (some (normalize_vendor_name (some x))) =
      normalize_vendor_name (some x) := by
  by_cases hx : x = ""
  · subst hx
    decide
  · refine nv_fixed_point _ ⟨noiseChain (lowerL (stripL x.data)), nv_data x hx⟩ hne ?_ hfree
    intro c hc
    rw [nv_data x hx] at hc
    rcases mem_collapseL hc with h | h
    · rcases List.mem_map.mp (mem_noiseChain h) with ⟨c2, _, rfl⟩
      exact lowerChar_idem c2
    · subst h
      decide

/-- Witness for C2 (amended) at a concrete clean name. -/
theorem normalize_idem_restricted_witness :
    (normalize_vendor_name (some "Spice Villa Menu") ≠ "" ∧
      containsSeq "menu".data (normalize_vendor_name (some "Spice Villa Menu")).data = false) ∧
    normalize_vendor_name (some (normalize_vendor_name (some "Spice Villa Menu"))) =
      normalize_vendor_name (some "Spice Villa Menu") :=
  ⟨⟨by decide, by decide⟩, normalize_idem_restricted "Spice Villa Menu" (by decide) (by decide)⟩

/-- C10 counterexample: the noise-token-only raw name `Menues`
normalizes to `es`, not to the empty string (removing `menus` first and
`menu` second eats the prefix of `menues` before its own token is
tried), and the non-empty raw name `Unknown` also produces `unknown`. -/
theorem noise_vendor_names_counterexample :
    normalize_vendor_name (some "Menues") = "es" ∧
    normalize_vendor_name (some "Menues") ≠ "" ∧
    normalize_vendor_name (some "Unknown") = "unknown" := by decide

/-- C10 (amended): a non-empty raw name that (after stripping and
lower-casing) is an interleaving of the tokens `menu` and `menus` with
spaces normalizes to the empty string — NOT to `unknown`, which arises
from null or empty input (and from names normalizing to the literal
`unknown`); equal normalizations give equal vendor ids, so every such
vendor receives the id derived from the hash of the empty string. -/
theorem noise_vendor_names_amended :
    (∀ raw : String, raw ≠ "" → NoiseStr (lowerL (stripL raw.data)) →
        normalize_vendor_name (some raw) = "") ∧
    normalize_vendor_name none = "unknown" ∧
    normalize_vendor_name (some "") = "unknown" ∧
    (∀ (md5hex : String → String) (x y : Option String),
        normalize_vendor_name x = normalize_vendor_name y →
        vendor_id_from_name md5hex x = vendor_id_from_name md5hex y) ∧
    (∀ (md5hex : String → String) (raw : String), raw ≠ "" →
        NoiseStr (lowerL (stripL raw.data)) →
        vendor_id_from_name md5hex (some raw) = String.mk ((md5hex "").data.take 8)) := by
  refine ⟨fun raw h1 h2 => nv_noise_empty raw h1 h2, rfl, by decide, ?_, ?_⟩
  · intro md5hex x y hxy
    unfold vendor_id_from_name
    rw [hxy]
  · intro md5hex raw h1 h2
    unfold vendor_id_from_name
    rw [nv_noise_empty raw h1 h2]

/-- Witness for C10 (amended) at the concrete raw name `Menu Menus`. -/
theorem noise_vendor_names_amended_witness :
    ("Menu Menus" ≠ "" ∧ normalize_vendor_name (some "Menu Menus") = "") ∧
    vendor_id_from_name (fun _ => "d41d8cd98f00b204e9800998ecf8427e") (some "Menu Menus") =
      String.mk ((("d41d8cd98f00b204e9800998ecf8427e" : String)).data.take 8) := by
  have hnoise : NoiseStr (lowerL (stripL "Menu Menus".data)) := by
    rw [show lowerL (stripL "Menu Menus".data) =
        ['m', 'e', 'n', 'u', ' ', 'm', 'e', 'n', 'u', 's'] from by decide]
    exact NoiseStr.menu (NoiseStr.space (NoiseStr.menus NoiseStr.nil))
  exact ⟨⟨by decide, noise_vendor_names_amended.1 "Menu Menus" (by decide) hnoise⟩,
    noise_vendor_names_amended.2.2.2.2 (fun _ => "d41d8cd98f00b204e9800998ecf8427e")
      "Menu Menus" (by decide) hnoise⟩

end MenuPipeline
